import Mathlib

/-!
Verification development for the pysynphot `Observation` rebinning engine
(`lib/observation.py` and `lib/newobservation.py`).

The embedding works over exact rationals (`ℚ`):

* wavelength grids and flux arrays are `List ℚ`;
* the combined spectrum×bandpass is an opaque function `f : ℚ → ℚ`
  (the `SpectralFunction` capability of the spec);
* numpy slicing, `searchsorted`, and fallible Python operations
  (`IndexError`, division by zero, `NotImplementedError`, …) are made
  explicit with `pySlice`, `searchsortedLeft` and `Except`.

`MergeWaveSets` and `trapezoidIntegration` live in `spectrum.py`, which is
not part of the sources; they are modelled from the spec (see their doc
comments).
-/

/-- Python-level failure modes that the embedded code can surface. -/
inductive PyError where
  | indexError
  | zeroDivisionError
  | notImplementedError
  deriving DecidableEq, Repr

/-- Modelled from the spec: `WavesetMerger` (implemented by
`spectrum.MergeWaveSets`, which is outside the given sources) "merges two or
more strictly-increasing numeric sequences into one strictly-increasing,
duplicate-free sequence": union of the values, sorted ascending, exact
duplicates removed.  `insertDedup` inserts one value into an already
strictly-sorted list, dropping it if it is an exact duplicate. -/
def insertDedup (x : ℚ) : List ℚ → List ℚ
  | [] => [x]
  | y :: ys => if x < y then x :: y :: ys else if x = y then y :: ys else y :: insertDedup x ys

/-- Sort a list ascending and remove exact duplicates (insertion sort). -/
def sortDedup : List ℚ → List ℚ
  | [] => []
  | x :: xs => insertDedup x (sortDedup xs)

/-- Modelled from the spec: `WavesetMerger` applied to two grids — the
sorted, duplicate-free union of the two input grids. -/
def MergeWaveSets (a b : List ℚ) : List ℚ := sortDedup (a ++ b)

/-- numpy `searchsorted(l, v)` with the default (leftmost) side on a sorted
array: the number of elements of `l` strictly below `v`, i.e. the leftmost
insertion index of `v` in `l`. -/
def searchsortedLeft (l : List ℚ) (v : ℚ) : Nat :=
  (l.filter (fun x => decide (x < v))).length

/-- Embedding of `midpoints = (binwave[1:] + binwave[:-1]) / 2.0`
(observation.py line 93): `midpoints b` has length `b.length - 1` and entry
`i` equal to `(b[i+1] + b[i]) / 2`. -/
def midpoints (b : List ℚ) : List ℚ :=
  List.zipWith (fun x y => (x + y) / 2) b.tail b

/-- Embedding of the `endpoints` construction (observation.py lines 94-97):
`endpoints[1:-1] = midpoints`, `endpoints[0] = binwave[0] - (midpoints[0] -
binwave[0])`, `endpoints[-1] = binwave[-1] + (binwave[-1] - midpoints[-1])`.
Reading `binwave[0]` or `midpoints[0]` of an empty array raises an
`IndexError` in Python, which surfaces here as `none` (that happens exactly
when `binwave` has fewer than 2 entries). -/
def binEndpoints (b : List ℚ) : Option (List ℚ) :=
  match b.head?, (midpoints b).head? with
  | some b0, some m0 =>
      some ((b0 - (m0 - b0)) ::
            (midpoints b ++ [b.getLast! + (b.getLast! - (midpoints b).getLast!)]))
  | _, _ => none

/-- Python slice-index normalisation: a negative index counts from the end,
and indices are clamped to `[0, len]`. -/
def pyNorm (len : Nat) (i : ℤ) : Nat :=
  if i < 0 then ((len : ℤ) + i).toNat else min i.toNat len

/-- Python slice `xs[first:last]`. -/
def pySlice (xs : List ℚ) (first last : ℤ) : List ℚ :=
  (xs.drop (pyNorm xs.length first)).take (pyNorm xs.length last - pyNorm xs.length first)

/-- Division guarded against a zero divisor; the error branch models the
numpy `0.0/0.0` degeneracy of observation.py line 121. -/
def checkedDiv (a b : ℚ) : Except PyError ℚ :=
  if b = 0 then .error .zeroDivisionError else .ok (a / b)

/-- Run a list of fallible per-bin computations in order, stopping at the
first failure (the semantics of the Python `for` loop raising). -/
def collectE : List (Except PyError ℚ) → Except PyError (List ℚ)
  | [] => .ok []
  | .error e :: _ => .error e
  | .ok x :: rest => (collectE rest).map (fun l => x :: l)

/-- Embedding of `avflux = (flux[1:] + flux[:-1]) / 2.0`. -/
def avfluxOf (flux : List ℚ) : List ℚ :=
  List.zipWith (fun a b => (a + b) / 2) flux.tail flux

/-- Embedding of `deltaw = spwave[1:] - spwave[:-1]`. -/
def deltawOf (w : List ℚ) : List ℚ :=
  List.zipWith (fun a b => a - b) w.tail w

/-- Embedding of observation.py lines 104-107: the per-bin half-open ranges
`(first, last)` with `first = indices[:-1][i]`,
`last = (indices[:-1] + (indices[1:] - indices[:-1]))[i]` (numpy integer
arithmetic, carried out in `ℤ`). -/
def binRanges (indices : List Nat) : List (Nat × ℤ) :=
  let firsts := indices.dropLast
  let diff := List.zipWith (fun (a b : Nat) => ((a : ℤ) - (b : ℤ))) indices.tail indices
  let lasts := List.zipWith (fun (a : Nat) (d : ℤ) => ((a : ℤ) + d)) firsts diff
  firsts.zip lasts

/-- One iteration of the summation loop of observation.py line 121:
`(avflux[first:last] * deltaw[first:last]).sum() / deltaw[first:last].sum()`,
with the division guarded. -/
def binfluxTerm (avflux deltaw : List ℚ) (r : Nat × ℤ) : Except PyError ℚ :=
  checkedDiv
    (List.zipWith (· * ·) (pySlice avflux (r.1 : ℤ) r.2) (pySlice deltaw (r.1 : ℤ) r.2)).sum
    (pySlice deltaw (r.1 : ℤ) r.2).sum

/-- One iteration of the raw-sum loop of newobservation.py line 73:
`(avflux[first:last] * deltaw[first:last]).sum()`. -/
def rawSumTerm (avflux deltaw : List ℚ) (r : Nat × ℤ) : ℚ :=
  (List.zipWith (· * ·) (pySlice avflux (r.1 : ℤ) r.2) (pySlice deltaw (r.1 : ℤ) r.2)).sum

/-- Embedding of `Observation.initbinflux` of observation.py (flux-density
mode): build the endpoints, merge the natural waveset with the endpoints and
then with the bin centers, locate every endpoint by binary search, evaluate
the combined flux once on the merged grid, and produce per bin the
width-normalised trapezoid sum (`_binflux`) and the accumulated width
(`_intwave`). -/
def initbinflux_obs (wave binwave : List ℚ) (f : ℚ → ℚ) :
    Except PyError (List ℚ × List ℚ) :=
  match binEndpoints binwave with
  | none => .error .indexError
  | some e =>
    let spwave := MergeWaveSets (MergeWaveSets wave e) binwave
    let indices := e.map (searchsortedLeft spwave)
    let flux := spwave.map f
    let avflux := avfluxOf flux
    let deltaw := deltawOf spwave
    let ranges := binRanges indices
    match collectE (ranges.map (binfluxTerm avflux deltaw)) with
    | .error err => .error err
    | .ok binflux =>
        .ok (binflux, ranges.map (fun r => (pySlice deltaw (r.1 : ℤ) r.2).sum))

/-- Embedding of `Observation.initbinflux` of newobservation.py (raw-sum
mode): same endpoint/searchsorted pipeline, but the merged grid joins the
natural waveset with the endpoints only, and each bin reports the raw
trapezoid sum with no width normalisation. -/
def initbinflux_new (wave binwave : List ℚ) (f : ℚ → ℚ) :
    Except PyError (List ℚ) :=
  match binEndpoints binwave with
  | none => .error .indexError
  | some e =>
    let spwave := MergeWaveSets wave e
    let indices := e.map (searchsortedLeft spwave)
    let deltaw := deltawOf spwave
    let flux := spwave.map f
    let avflux := avfluxOf flux
    let ranges := binRanges indices
    .ok (ranges.map (rawSumTerm avflux deltaw))

/-- Outcome of `Observation.validate_overlap` (observation.py lines 45-69). -/
inductive ValidateResult where
  | proceed
  | proceedTapered
  | raiseDomainOverlap
  | raiseInvalidForce
  deriving DecidableEq, Repr

/-- Model of Python's `str.lower()` (over the string's characters). -/
def pyLower (s : String) : String := ⟨s.data.map Char.toLower⟩

/-- Model of Python's `str.startswith(pre)`. -/
def pyStartswith (s pre : String) : Bool := pre.data.isPrefixOf s.data

/-- Embedding of `Observation.validate_overlap`: `stat` is the string
returned by `spectrum.check_overlap(bandpass)` and `force` the optional
force keyword (`force.lower()` and `.startswith` modelled by `pyLower` and
`pyStartswith`).  `raiseDomainOverlap` models the `ValueError` raised for
partial/disjoint overlap and `raiseInvalidForce` the `KeyError` raised for
an unrecognised force value. -/
def validate_overlap (stat : String) (force : Option String) : ValidateResult :=
  match force with
  | Option.none =>
      if stat = "full" then .proceed
      else if stat = "partial" then .raiseDomainOverlap
      else if stat = "none" then .raiseDomainOverlap
      else .proceed
  | Option.some s =>
      if pyLower s = "taper" then .proceedTapered
      else if pyStartswith (pyLower s) "extrap" then .proceed
      else .raiseInvalidForce

/-- Result of calling `bandpass.obsmode.bandWave()` in `initbinset`:
either a wavelength grid, Python `None`, or a `KeyError`/`AttributeError`
(missing obsmode or missing wavecat entry). -/
inductive BandWaveResult where
  | grid (w : List ℚ)
  | pyNone
  | raisesKeyOrAttr
  deriving DecidableEq, Repr

/-- Output of `initbinset`: the stored `binwave` plus whether the advisory
"does not have a defined binset in the wavecat table" message was printed. -/
structure BinsetOut where
  binwave : List ℚ
  advisory : Bool
  deriving DecidableEq, Repr

/-- Embedding of `Observation.initbinset` of observation.py (lines 71-84):
a caller-supplied binset is stored unchanged; with no binset the bandpass's
native `bandWave()` grid is used, and if that raises or returns `None` the
spectrum's waveset is substituted with an advisory message. -/
def initbinset_obs (specWave : List ℚ) (bw : BandWaveResult)
    (binset : Option (List ℚ)) : BinsetOut :=
  match binset with
  | Option.some b => ⟨b, false⟩
  | Option.none =>
      match bw with
      | .raisesKeyOrAttr => ⟨specWave, true⟩
      | .pyNone => ⟨specWave, true⟩
      | .grid w => ⟨w, false⟩

/-- Embedding of `Observation.__mul__` (both files): raises
`NotImplementedError` for every operand, returning no value (`Empty`). -/
def obs_mul {σ : Type} {α : Type} (_self : σ) (_other : α) : Except PyError Empty :=
  .error .notImplementedError

/-- Embedding of `Observation.__rmul__`. -/
def obs_rmul {σ : Type} {α : Type} (_self : σ) (_other : α) : Except PyError Empty :=
  .error .notImplementedError

/-- Embedding of `Observation.__add__`. -/
def obs_add {σ : Type} {α : Type} (_self : σ) (_other : α) : Except PyError Empty :=
  .error .notImplementedError

/-- Embedding of `Observation.__radd__`. -/
def obs_radd {σ : Type} {α : Type} (_self : σ) (_other : α) : Except PyError Empty :=
  .error .notImplementedError

/-- Embedding of `Observation.redshift`. -/
def obs_redshift {σ : Type} (_self : σ) (_z : ℚ) : Except PyError Empty :=
  .error .notImplementedError

/-- Modelled from the spec: `TrapezoidIntegrator` (implemented by
`spectrum.trapezoidIntegration`, which is outside the given sources):
`Σ (f[i]+f[i+1])/2 * (w[i+1]-w[i])` over the whole grid, `0` when the grid
has fewer than 2 points. -/
def trapezoidIntegration (w f : List ℚ) : ℚ :=
  (List.zipWith (· * ·) (avfluxOf f) (deltawOf w)).sum

/-- Return value of `Observation.pivot`: either the guarded `0.0` or the
(irrational-valued) `math.sqrt` of an exactly represented rational. -/
inductive PivotResult where
  | zero
  | sqrtOf (x : ℚ)
  deriving DecidableEq, Repr

/-- Embedding of `Observation.pivot` (observation.py lines 167-182):
integrate `f(w)*w` and `f(w)/w` over the native waveset by the trapezoid
rule, return `0.0` if either integral is exactly zero, else
`sqrt(num/den)`. -/
def pivot (wave : List ℚ) (f : ℚ → ℚ) : PivotResult :=
  let countmulwave := wave.map (fun w => f w * w)
  let countdivwave := wave.map (fun w => f w / w)
  let num := trapezoidIntegration wave countmulwave
  let den := trapezoidIntegration wave countdivwave
  if num = 0 ∨ den = 0 then .zero else .sqrtOf (num / den)

/-! ### Properties of the merged waveset -/

theorem mem_insertDedup {x y : ℚ} {l : List ℚ} :
    y ∈ insertDedup x l ↔ y = x ∨ y ∈ l := by
  induction l with
  | nil => simp [insertDedup]
  | cons z zs ih =>
      rw [insertDedup]
      split_ifs with h1 h2
      · simp only [List.mem_cons]
        try tauto
      · subst h2
        simp only [List.mem_cons]
        try tauto
      · simp only [List.mem_cons, ih]
        try tauto

theorem pairwise_insertDedup {x : ℚ} {l : List ℚ} (h : l.Pairwise (· < ·)) :
    (insertDedup x l).Pairwise (· < ·) := by
  induction l with
  | nil => simp [insertDedup]
  | cons z zs ih =>
      rw [List.pairwise_cons] at h
      obtain ⟨hz, hzs⟩ := h
      by_cases h1 : x < z
      · rw [insertDedup, if_pos h1, List.pairwise_cons]
        refine ⟨?_, List.pairwise_cons.mpr ⟨hz, hzs⟩⟩
        intro y hy
        rcases List.mem_cons.mp hy with rfl | hy
        · exact h1
        · exact lt_trans h1 (hz y hy)
      · by_cases h2 : x = z
        · rw [insertDedup, if_neg h1, if_pos h2]
          exact List.pairwise_cons.mpr ⟨hz, hzs⟩
        · rw [insertDedup, if_neg h1, if_neg h2, List.pairwise_cons]
          refine ⟨?_, ih hzs⟩
          intro y hy
          rcases mem_insertDedup.mp hy with rfl | hy
          · exact lt_of_le_of_ne (not_lt.mp h1) (Ne.symm h2)
          · exact hz y hy

theorem mem_sortDedup {x : ℚ} {l : List ℚ} : x ∈ sortDedup l ↔ x ∈ l := by
  induction l with
  | nil => simp [sortDedup]
  | cons z zs ih => simp [sortDedup, mem_insertDedup, ih]

theorem pairwise_sortDedup (l : List ℚ) : (sortDedup l).Pairwise (· < ·) := by
  induction l with
  | nil => simp [sortDedup]
  | cons z zs ih => exact pairwise_insertDedup ih

theorem mem_MergeWaveSets {x : ℚ} {a b : List ℚ} :
    x ∈ MergeWaveSets a b ↔ x ∈ a ∨ x ∈ b := by
  simp [MergeWaveSets, mem_sortDedup]

theorem pairwise_MergeWaveSets (a b : List ℚ) :
    (MergeWaveSets a b).Pairwise (· < ·) :=
  pairwise_sortDedup _

/-! ### Properties of the leftmost binary search -/

theorem searchsortedLeft_getElem (l : List ℚ) (hl : l.Pairwise (· < ·))
    (k : Nat) (hk : k < l.length) : searchsortedLeft l l[k] = k := by
  induction l generalizing k with
  | nil => simp at hk
  | cons z zs ih =>
      rw [List.pairwise_cons] at hl
      obtain ⟨hz, hzs⟩ := hl
      match k with
      | 0 =>
          have : ∀ y ∈ z :: zs, ¬ (decide (y < z) = true) := by
            intro y hy
            rcases List.mem_cons.mp hy with rfl | hy
            · simp
            · simp only [decide_eq_true_eq, not_lt]
              exact le_of_lt (hz y hy)
          simp only [searchsortedLeft, List.getElem_cons_zero]
          rw [List.filter_eq_nil_iff.mpr this]
          rfl
      | k + 1 =>
          have hk' : k < zs.length := by simpa using hk
          have hv : z < zs[k] := hz _ (List.getElem_mem hk')
          simp only [searchsortedLeft, List.getElem_cons_succ, List.filter_cons]
          rw [if_pos (by simpa using hv)]
          simp only [List.length_cons]
          have := ih hzs k hk'
          simp only [searchsortedLeft] at this
          omega

theorem searchsortedLeft_of_mem {l : List ℚ} {v : ℚ} (hl : l.Pairwise (· < ·))
    (hv : v ∈ l) :
    ∃ hk : searchsortedLeft l v < l.length, l[searchsortedLeft l v] = v := by
  obtain ⟨n, hn, rfl⟩ := List.mem_iff_getElem.mp hv
  rw [searchsortedLeft_getElem l hl n hn]
  exact ⟨hn, rfl⟩

theorem searchsortedLeft_lt_length {l : List ℚ} {v : ℚ} (hl : l.Pairwise (· < ·))
    (hv : v ∈ l) : searchsortedLeft l v < l.length :=
  (searchsortedLeft_of_mem hl hv).1

theorem searchsortedLeft_strictMono {l : List ℚ} {u v : ℚ} (hl : l.Pairwise (· < ·))
    (hu : u ∈ l) (hv : v ∈ l) (huv : u < v) :
    searchsortedLeft l u < searchsortedLeft l v := by
  obtain ⟨hku, hgu⟩ := searchsortedLeft_of_mem hl hu
  obtain ⟨hkv, hgv⟩ := searchsortedLeft_of_mem hl hv
  by_contra hle
  push_neg at hle
  rcases lt_or_eq_of_le hle with hlt | heq
  · have := (List.pairwise_iff_getElem.mp hl) _ _ hkv hku hlt
    rw [hgu, hgv] at this
    exact absurd (lt_trans huv this) (lt_irrefl u)
  · have h2 : l.get ⟨searchsortedLeft l v, hkv⟩ = l.get ⟨searchsortedLeft l u, hku⟩ := by
      simp only [heq]
    rw [List.get_eq_getElem, List.get_eq_getElem, hgv, hgu] at h2
    exact absurd h2.symm (ne_of_lt huv)

/-! ### Sums over Python slices -/

theorem sum_eq_sum_getD (xs : List ℚ) :
    xs.sum = ∑ k ∈ Finset.range xs.length, xs.getD k 0 := by
  induction xs with
  | nil => simp
  | cons x t ih =>
      rw [List.sum_cons, ih, List.length_cons, Finset.sum_range_succ']
      simp [List.getD_cons_succ, List.getD_cons_zero, add_comm]

theorem getD_tail (l : List ℚ) (k : Nat) : l.tail.getD k 0 = l.getD (k + 1) 0 := by
  cases l with
  | nil => rfl
  | cons x t => simp [List.getD_cons_succ]

theorem getD_drop (xs : List ℚ) (a j : Nat) :
    (xs.drop a).getD j 0 = xs.getD (a + j) 0 := by
  by_cases h : a + j < xs.length
  · have hj : j < (xs.drop a).length := by
      rw [List.length_drop]; omega
    rw [List.getD_eq_getElem _ _ hj, List.getD_eq_getElem _ _ h, List.getElem_drop]
  · rw [List.getD_eq_default, List.getD_eq_default]
    · omega
    · rw [List.length_drop]; omega

theorem getD_take (xs : List ℚ) (b j : Nat) (hj : j < b) :
    (xs.take b).getD j 0 = xs.getD j 0 := by
  by_cases h : j < xs.length
  · have hj' : j < (xs.take b).length := by
      rw [List.length_take]; omega
    rw [List.getD_eq_getElem _ _ hj', List.getD_eq_getElem _ _ h, List.getElem_take]
  · rw [List.getD_eq_default, List.getD_eq_default]
    · omega
    · rw [List.length_take]; omega

theorem getD_zipWith (f : ℚ → ℚ → ℚ) (xs ys : List ℚ) (k : Nat)
    (h1 : k < xs.length) (h2 : k < ys.length) :
    (List.zipWith f xs ys).getD k 0 = f (xs.getD k 0) (ys.getD k 0) := by
  have hk : k < (List.zipWith f xs ys).length := by
    rw [List.length_zipWith]; omega
  rw [List.getD_eq_getElem _ _ hk, List.getD_eq_getElem _ _ h1,
    List.getD_eq_getElem _ _ h2, List.getElem_zipWith]

theorem pyNorm_natCast (len a : Nat) : pyNorm len (a : ℤ) = min a len := by
  simp [pyNorm]

theorem pySlice_natCast (xs : List ℚ) (a b : Nat) :
    pySlice xs (a : ℤ) (b : ℤ) =
      (xs.drop (min a xs.length)).take (min b xs.length - min a xs.length) := by
  rw [pySlice, pyNorm_natCast, pyNorm_natCast]

theorem pySlice_sum (xs : List ℚ) (a b : Nat) (hb : b ≤ xs.length) :
    (pySlice xs (a : ℤ) (b : ℤ)).sum = ∑ k ∈ Finset.Ico a b, xs.getD k 0 := by
  rw [pySlice_natCast]
  by_cases ha : a ≤ xs.length
  · rw [min_eq_left ha, min_eq_left hb]
    by_cases hab : a ≤ b
    · have hlen : ((xs.drop a).take (b - a)).length = b - a := by
        rw [List.length_take, List.length_drop]; omega
      rw [sum_eq_sum_getD, hlen, Finset.sum_Ico_eq_sum_range]
      refine Finset.sum_congr rfl ?_
      intro k hk
      rw [Finset.mem_range] at hk
      rw [getD_take _ _ _ hk, getD_drop]
    · have hab' : b - a = 0 := by omega
      rw [hab', List.take_zero, Finset.Ico_eq_empty (by omega)]
      simp
  · have h1 : min a xs.length = xs.length := by omega
    rw [h1, List.drop_length, List.take_nil, Finset.Ico_eq_empty (by omega)]
    simp

theorem pySlice_self (xs : List ℚ) (i : ℤ) : pySlice xs i i = [] := by
  simp [pySlice]

theorem pySlice_zipWith (f : ℚ → ℚ → ℚ) (xs ys : List ℚ)
    (h : xs.length = ys.length) (a b : ℤ) :
    List.zipWith f (pySlice xs a b) (pySlice ys a b) =
      pySlice (List.zipWith f xs ys) a b := by
  have hz : (List.zipWith f xs ys).length = xs.length := by
    rw [List.length_zipWith]; omega
  rw [pySlice, pySlice, pySlice, hz, h, ← List.take_zipWith, ← List.drop_zipWith, ← h]

/-! ### Lengths and entries of the integration arrays -/

theorem length_avfluxOf (l : List ℚ) : (avfluxOf l).length = l.length - 1 := by
  rw [avfluxOf, List.length_zipWith, List.length_tail]; omega

theorem length_deltawOf (l : List ℚ) : (deltawOf l).length = l.length - 1 := by
  rw [deltawOf, List.length_zipWith, List.length_tail]; omega

theorem deltawOf_getD (w : List ℚ) (k : Nat) (hk : k + 1 < w.length) :
    (deltawOf w).getD k 0 = w.getD (k + 1) 0 - w.getD k 0 := by
  rw [deltawOf, getD_zipWith _ _ _ _ (by rw [List.length_tail]; omega) (by omega),
    getD_tail]

theorem avfluxOf_getD (l : List ℚ) (k : Nat) (hk : k + 1 < l.length) :
    (avfluxOf l).getD k 0 = (l.getD (k + 1) 0 + l.getD k 0) / 2 := by
  rw [avfluxOf, getD_zipWith _ _ _ _ (by rw [List.length_tail]; omega) (by omega),
    getD_tail]

theorem getD_map (f : ℚ → ℚ) (l : List ℚ) (k : Nat) (hk : k < l.length) :
    (l.map f).getD k 0 = f (l.getD k 0) := by
  rw [List.getD_eq_getElem _ _ (by rw [List.length_map]; omega),
    List.getD_eq_getElem _ _ hk, List.getElem_map]

theorem deltawOf_getD_pos {w : List ℚ} (hw : w.Pairwise (· < ·)) (k : Nat)
    (hk : k + 1 < w.length) : 0 < (deltawOf w).getD k 0 := by
  rw [deltawOf_getD _ _ hk]
  have := (List.pairwise_iff_getElem.mp hw) k (k + 1) (by omega) hk (by omega)
  rw [List.getD_eq_getElem _ _ hk, List.getD_eq_getElem _ _ (by omega)]
  linarith

/-! ### Properties of the bin-edge construction -/

theorem getLast!_eq_getD (l : List ℚ) (h : l ≠ []) :
    l.getLast! = l.getD (l.length - 1) 0 := by
  match l with
  | [] => exact absurd rfl h
  | a :: as =>
      have h1 : (a :: as).getLast! = (a :: as).getLast (List.cons_ne_nil a as) := rfl
      rw [h1, List.getLast_eq_getElem, List.getD_eq_getElem _ _ (by simp)]

theorem midpoints_cons_cons (b0 b1 : ℚ) (rest : List ℚ) :
    midpoints (b0 :: b1 :: rest) = ((b1 + b0) / 2) :: midpoints (b1 :: rest) := rfl

theorem length_midpoints (b : List ℚ) : (midpoints b).length = b.length - 1 := by
  rw [midpoints, List.length_zipWith, List.length_tail]; omega

theorem midpoints_getD (b : List ℚ) (j : Nat) (hj : j + 1 < b.length) :
    (midpoints b).getD j 0 = (b.getD (j + 1) 0 + b.getD j 0) / 2 := by
  rw [midpoints, getD_zipWith _ _ _ _ (by rw [List.length_tail]; omega) (by omega),
    getD_tail]

theorem binEndpoints_cons_cons (b0 b1 : ℚ) (rest : List ℚ) :
    binEndpoints (b0 :: b1 :: rest) =
      some ((b0 - ((b1 + b0) / 2 - b0)) ::
        (midpoints (b0 :: b1 :: rest) ++
          [(b0 :: b1 :: rest).getLast! +
            ((b0 :: b1 :: rest).getLast! - (midpoints (b0 :: b1 :: rest)).getLast!)])) := by
  rw [binEndpoints, midpoints_cons_cons]
  rfl

theorem binEndpoints_none_of_short {b : List ℚ} (h : b.length < 2) :
    binEndpoints b = none := by
  match b with
  | [] => rfl
  | [b0] => rfl
  | b0 :: b1 :: rest => exact absurd h (by simp)

theorem binEndpoints_some_parts {b e : List ℚ} (he : binEndpoints b = some e) :
    2 ≤ b.length ∧
      e = (b.getD 0 0 - ((midpoints b).getD 0 0 - b.getD 0 0)) ::
          (midpoints b ++ [b.getD (b.length - 1) 0 +
            (b.getD (b.length - 1) 0 - (midpoints b).getD (b.length - 2) 0)]) := by
  match b with
  | [] => simp [binEndpoints, midpoints] at he
  | [b0] => simp [binEndpoints, midpoints] at he
  | b0 :: b1 :: rest =>
      rw [binEndpoints_cons_cons] at he
      refine ⟨by simp, ?_⟩
      have hmne : midpoints (b0 :: b1 :: rest) ≠ [] := by
        rw [midpoints_cons_cons]; exact List.cons_ne_nil _ _
      have hb0 : (b0 :: b1 :: rest).getD 0 0 = b0 := rfl
      have hm0 : (midpoints (b0 :: b1 :: rest)).getD 0 0 = (b1 + b0) / 2 := by
        rw [midpoints_cons_cons]; rfl
      have hlast : (b0 :: b1 :: rest).getLast! =
          (b0 :: b1 :: rest).getD ((b0 :: b1 :: rest).length - 1) 0 :=
        getLast!_eq_getD _ (List.cons_ne_nil _ _)
      have hmlast : (midpoints (b0 :: b1 :: rest)).getLast! =
          (midpoints (b0 :: b1 :: rest)).getD ((b0 :: b1 :: rest).length - 2) 0 := by
        rw [getLast!_eq_getD _ hmne, length_midpoints]
        have h2 : (b0 :: b1 :: rest).length - 1 - 1 = (b0 :: b1 :: rest).length - 2 := by
          omega
        rw [h2]
      injection he with he'
      rw [← he', hb0, hm0, ← hlast, ← hmlast]

theorem endpoints_length {b e : List ℚ} (he : binEndpoints b = some e) :
    e.length = b.length + 1 := by
  obtain ⟨hlen, rfl⟩ := binEndpoints_some_parts he
  simp [length_midpoints]
  omega

theorem endpoints_getD_zero {b e : List ℚ} (he : binEndpoints b = some e) :
    e.getD 0 0 = b.getD 0 0 - ((b.getD 1 0 + b.getD 0 0) / 2 - b.getD 0 0) := by
  obtain ⟨hlen, rfl⟩ := binEndpoints_some_parts he
  rw [List.getD_cons_zero, midpoints_getD _ 0 (by omega)]

theorem endpoints_getD_interior {b e : List ℚ} (he : binEndpoints b = some e)
    (j : Nat) (hj : j + 1 < b.length) :
    e.getD (j + 1) 0 = (b.getD (j + 1) 0 + b.getD j 0) / 2 := by
  obtain ⟨hlen, rfl⟩ := binEndpoints_some_parts he
  rw [List.getD_cons_succ,
    List.getD_append _ _ _ _ (by rw [length_midpoints]; omega),
    midpoints_getD _ j hj]

theorem getD_cons_append_singleton (h x : ℚ) (m : List ℚ) :
    (h :: (m ++ [x])).getD (m.length + 1) 0 = x := by
  rw [List.getD_cons_succ, List.getD_append_right _ _ _ _ (le_refl _)]
  simp

theorem endpoints_getD_last {b e : List ℚ} (he : binEndpoints b = some e) :
    e.getD b.length 0 =
      b.getD (b.length - 1) 0 + (b.getD (b.length - 1) 0 -
        (b.getD (b.length - 1) 0 + b.getD (b.length - 2) 0) / 2) := by
  obtain ⟨hlen, rfl⟩ := binEndpoints_some_parts he
  have h1 := getD_cons_append_singleton
    (b.getD 0 0 - ((midpoints b).getD 0 0 - b.getD 0 0))
    (b.getD (b.length - 1) 0 +
      (b.getD (b.length - 1) 0 - (midpoints b).getD (b.length - 2) 0))
    (midpoints b)
  have h2 : (midpoints b).length + 1 = b.length := by
    rw [length_midpoints]; omega
  rw [h2] at h1
  rw [h1]
  have h3 := midpoints_getD b (b.length - 2) (by omega)
  have h4 : b.length - 2 + 1 = b.length - 1 := by omega
  rw [h4] at h3
  rw [h3]

theorem pairwise_getD_lt {b : List ℚ} (hb : b.Pairwise (· < ·)) {i j : Nat}
    (hij : i < j) (hj : j < b.length) : b.getD i 0 < b.getD j 0 := by
  rw [List.getD_eq_getElem _ _ (by omega), List.getD_eq_getElem _ _ hj]
  exact (List.pairwise_iff_getElem.mp hb) i j (by omega) hj hij

theorem endpoints_interleave {b e : List ℚ} (hb : b.Pairwise (· < ·))
    (he : binEndpoints b = some e) (i : Nat) (hi : i < b.length) :
    e.getD i 0 < b.getD i 0 ∧ b.getD i 0 < e.getD (i + 1) 0 := by
  have hlen := (binEndpoints_some_parts he).1
  constructor
  · cases i with
    | zero =>
        rw [endpoints_getD_zero he]
        have h01 : b.getD 0 0 < b.getD 1 0 := pairwise_getD_lt hb (by omega) (by omega)
        linarith
    | succ j =>
        rw [endpoints_getD_interior he j hi]
        have := pairwise_getD_lt hb (show j < j + 1 by omega) hi
        linarith
  · by_cases hlast : i + 1 = b.length
    · rw [hlast, endpoints_getD_last he]
      have h1 : i = b.length - 1 := by omega
      rw [h1]
      have := pairwise_getD_lt hb (show b.length - 2 < b.length - 1 by omega) (by omega)
      linarith
    · have hi1 : i + 1 < b.length := by omega
      rw [endpoints_getD_interior he i hi1]
      have := pairwise_getD_lt hb (show i < i + 1 by omega) hi1
      linarith

theorem endpoints_pairwise {b e : List ℚ} (hb : b.Pairwise (· < ·))
    (he : binEndpoints b = some e) : e.Pairwise (· < ·) := by
  rw [← List.chain'_iff_pairwise, List.chain'_iff_get]
  intro i hilen
  have helen := endpoints_length he
  have hi : i < b.length := by omega
  have h1 := endpoints_interleave hb he i hi
  have hgd : e.get ⟨i, by omega⟩ = e.getD i 0 := by
    rw [List.get_eq_getElem, List.getD_eq_getElem _ _ (by omega)]
  have hgd2 : e.get ⟨i + 1, by omega⟩ = e.getD (i + 1) 0 := by
    rw [List.get_eq_getElem, List.getD_eq_getElem _ _ (by omega)]
  rw [hgd, hgd2]
  exact lt_trans h1.1 h1.2

/-! ### The per-bin index ranges -/

theorem length_binRanges (indices : List Nat) :
    (binRanges indices).length = indices.length - 1 := by
  rw [binRanges]
  simp only [List.length_zip, List.length_zipWith, List.length_dropLast,
    List.length_tail]
  omega

theorem binRanges_getD (indices : List Nat) (i : Nat) (hi : i + 1 < indices.length) :
    (binRanges indices).getD i (0, 0) =
      (indices.getD i 0, (indices.getD (i + 1) 0 : ℤ)) := by
  have hlen : (binRanges indices).length = indices.length - 1 := length_binRanges indices
  have hi' : i < (binRanges indices).length := by omega
  rw [List.getD_eq_getElem _ _ hi',
    List.getD_eq_getElem _ _ (show i < indices.length by omega),
    List.getD_eq_getElem _ _ hi]
  simp only [binRanges, List.getElem_zip, List.getElem_zipWith,
    List.getElem_dropLast, List.getElem_tail]
  refine Prod.ext rfl ?_
  push_cast
  ring

/-- Claim C3: for every strictly increasing bin-center array of length
`n ≥ 2`, the endpoint array has length `n+1`, interior entries are the
midpoints of adjacent centers, the outer entries mirror the first/last
half-bins outward, and the edges interleave the centers:
`endpoints[i] < binwave[i] < endpoints[i+1]` for all `i < n`. -/
theorem claim_C3_bin_edges {b : List ℚ} (hb : b.Pairwise (· < ·))
    (hlen : 2 ≤ b.length) :
    ∃ e, binEndpoints b = some e ∧
      e.length = b.length + 1 ∧
      (∀ i, 1 ≤ i → i ≤ b.length - 1 →
        e.getD i 0 = (b.getD (i - 1) 0 + b.getD i 0) / 2) ∧
      e.getD 0 0 = b.getD 0 0 - ((b.getD 0 0 + b.getD 1 0) / 2 - b.getD 0 0) ∧
      e.getD b.length 0 = b.getD (b.length - 1) 0 +
        (b.getD (b.length - 1) 0 -
          (b.getD (b.length - 2) 0 + b.getD (b.length - 1) 0) / 2) ∧
      ∀ i < b.length, e.getD i 0 < b.getD i 0 ∧ b.getD i 0 < e.getD (i + 1) 0 := by
  obtain ⟨e, he⟩ : ∃ e, binEndpoints b = some e := by
    match b with
    | b0 :: b1 :: rest => exact ⟨_, binEndpoints_cons_cons b0 b1 rest⟩
    | [] => simp at hlen
    | [b0] => simp at hlen
  refine ⟨e, he, endpoints_length he, ?_, ?_, ?_,
    fun i hi => endpoints_interleave hb he i hi⟩
  · intro i h1 h2
    have hj : (i - 1) + 1 = i := by omega
    have h3 := endpoints_getD_interior he (i - 1) (by omega)
    rw [hj] at h3
    rw [h3]
    ring
  · rw [endpoints_getD_zero he]
    ring
  · rw [endpoints_getD_last he]
    ring

/-- Witness for C3 at the concrete binset `[150, 250, 350, 450]`. -/
theorem claim_C3_witness :
    ([150, 250, 350, 450] : List ℚ).Pairwise (· < ·) ∧
      2 ≤ ([150, 250, 350, 450] : List ℚ).length ∧
      (∃ e, binEndpoints ([150, 250, 350, 450] : List ℚ) = some e ∧
        e.length = ([150, 250, 350, 450] : List ℚ).length + 1 ∧
        (∀ i, 1 ≤ i → i ≤ ([150, 250, 350, 450] : List ℚ).length - 1 →
          e.getD i 0 = (([150, 250, 350, 450] : List ℚ).getD (i - 1) 0 +
            ([150, 250, 350, 450] : List ℚ).getD i 0) / 2) ∧
        e.getD 0 0 = ([150, 250, 350, 450] : List ℚ).getD 0 0 -
          ((([150, 250, 350, 450] : List ℚ).getD 0 0 +
            ([150, 250, 350, 450] : List ℚ).getD 1 0) / 2 -
            ([150, 250, 350, 450] : List ℚ).getD 0 0) ∧
        e.getD ([150, 250, 350, 450] : List ℚ).length 0 =
          ([150, 250, 350, 450] : List ℚ).getD (([150, 250, 350, 450] : List ℚ).length - 1) 0 +
          (([150, 250, 350, 450] : List ℚ).getD (([150, 250, 350, 450] : List ℚ).length - 1) 0 -
            (([150, 250, 350, 450] : List ℚ).getD (([150, 250, 350, 450] : List ℚ).length - 2) 0 +
             ([150, 250, 350, 450] : List ℚ).getD (([150, 250, 350, 450] : List ℚ).length - 1) 0) / 2) ∧
        ∀ i < ([150, 250, 350, 450] : List ℚ).length,
          e.getD i 0 < ([150, 250, 350, 450] : List ℚ).getD i 0 ∧
          ([150, 250, 350, 450] : List ℚ).getD i 0 < e.getD (i + 1) 0) :=
  ⟨by decide, by decide, claim_C3_bin_edges (by decide) (by decide)⟩

/-! ### Per-bin integration terms -/

theorem collectE_map_ok {α : Type} (l : List α) (g : α → Except PyError ℚ)
    (v : α → ℚ) (h : ∀ x ∈ l, g x = .ok (v x)) :
    collectE (l.map g) = .ok (l.map v) := by
  induction l with
  | nil => rfl
  | cons x t ih =>
      rw [List.map_cons, List.map_cons, h x (List.mem_cons_self x t), collectE,
        ih (fun y hy => h y (List.mem_cons_of_mem x hy))]
      rfl

theorem rawSumTerm_spec (s : List ℚ) (f : ℚ → ℚ) (a b' : Nat)
    (hb' : b' + 1 ≤ s.length) :
    rawSumTerm (avfluxOf (s.map f)) (deltawOf s) (a, (b' : ℤ)) =
      ∑ k ∈ Finset.Ico a b',
        (f (s.getD k 0) + f (s.getD (k + 1) 0)) / 2 *
          (s.getD (k + 1) 0 - s.getD k 0) := by
  rw [rawSumTerm]
  have hlen : (avfluxOf (s.map f)).length = (deltawOf s).length := by
    rw [length_avfluxOf, length_deltawOf, List.length_map]
  rw [pySlice_zipWith _ _ _ hlen]
  rw [pySlice_sum _ a b'
    (by rw [List.length_zipWith, length_avfluxOf, length_deltawOf, List.length_map]; omega)]
  refine Finset.sum_congr rfl ?_
  intro k hk
  rw [Finset.mem_Ico] at hk
  have hk1 : k + 1 < s.length := by omega
  rw [getD_zipWith _ _ _ _ (by rw [length_avfluxOf, List.length_map]; omega)
      (by rw [length_deltawOf]; omega),
    avfluxOf_getD _ _ (by rw [List.length_map]; omega),
    deltawOf_getD _ _ hk1,
    getD_map _ _ _ (by omega), getD_map _ _ _ (show k < s.length by omega)]
  ring

theorem widthTerm_spec (s : List ℚ) (a b' : Nat) (hb' : b' + 1 ≤ s.length) :
    (pySlice (deltawOf s) (a : ℤ) (b' : ℤ)).sum =
      ∑ k ∈ Finset.Ico a b', (s.getD (k + 1) 0 - s.getD k 0) := by
  rw [pySlice_sum _ a b' (by rw [length_deltawOf]; omega)]
  refine Finset.sum_congr rfl ?_
  intro k hk
  rw [Finset.mem_Ico] at hk
  exact deltawOf_getD _ _ (by omega)

theorem widthTerm_pos {s : List ℚ} (hsp : s.Pairwise (· < ·)) (a b' : Nat)
    (hab : a < b') (hb' : b' + 1 ≤ s.length) :
    0 < (pySlice (deltawOf s) (a : ℤ) (b' : ℤ)).sum := by
  rw [widthTerm_spec _ _ _ hb']
  apply Finset.sum_pos
  · intro k hk
    rw [Finset.mem_Ico] at hk
    have hk1 : k + 1 < s.length := by omega
    have := pairwise_getD_lt hsp (show k < k + 1 by omega) hk1
    linarith
  · exact ⟨a, Finset.mem_Ico.mpr ⟨le_refl a, hab⟩⟩

theorem indices_getD (s e : List ℚ) (k : Nat) (hk : k < e.length) :
    (e.map (searchsortedLeft s)).getD k 0 = searchsortedLeft s (e.getD k 0) := by
  rw [List.getD_eq_getElem _ _ (by rw [List.length_map]; omega), List.getElem_map,
    List.getD_eq_getElem _ _ hk]

theorem ind_lt_length {s e : List ℚ} (hsp : s.Pairwise (· < ·))
    (hmem : ∀ x ∈ e, x ∈ s) (k : Nat) (hk : k < e.length) :
    searchsortedLeft s (e.getD k 0) < s.length := by
  apply searchsortedLeft_lt_length hsp
  rw [List.getD_eq_getElem _ _ hk]
  exact hmem _ (List.getElem_mem hk)

theorem ind_strictMono {s e : List ℚ} (hsp : s.Pairwise (· < ·))
    (hep : e.Pairwise (· < ·)) (hmem : ∀ x ∈ e, x ∈ s) (k : Nat)
    (hk : k + 1 < e.length) :
    searchsortedLeft s (e.getD k 0) < searchsortedLeft s (e.getD (k + 1) 0) := by
  apply searchsortedLeft_strictMono hsp
  · rw [List.getD_eq_getElem _ _ (by omega : k < e.length)]
    exact hmem _ (List.getElem_mem _)
  · rw [List.getD_eq_getElem _ _ hk]
    exact hmem _ (List.getElem_mem _)
  · exact pairwise_getD_lt hep (by omega) hk

theorem getD_map_pair (w : Nat × ℤ → ℚ) (l : List (Nat × ℤ)) (i : Nat)
    (hi : i < l.length) : (l.map w).getD i 0 = w (l.getD i (0, 0)) := by
  rw [List.getD_eq_getElem _ _ (by rw [List.length_map]; omega), List.getElem_map,
    List.getD_eq_getElem _ _ hi]

theorem initbinflux_obs_spec (wave : List ℚ) (f : ℚ → ℚ) {b e s : List ℚ}
    (hb : b.Pairwise (· < ·)) (he : binEndpoints b = some e)
    (hs : s = MergeWaveSets (MergeWaveSets wave e) b) :
    ∃ bf iw,
      initbinflux_obs wave b f = .ok (bf, iw) ∧
      bf.length = b.length ∧ iw.length = b.length ∧
      ∀ i < b.length,
        iw.getD i 0 =
          (∑ k ∈ Finset.Ico (searchsortedLeft s (e.getD i 0))
              (searchsortedLeft s (e.getD (i + 1) 0)),
            (s.getD (k + 1) 0 - s.getD k 0)) ∧
        0 < iw.getD i 0 ∧
        bf.getD i 0 =
          (∑ k ∈ Finset.Ico (searchsortedLeft s (e.getD i 0))
              (searchsortedLeft s (e.getD (i + 1) 0)),
            (f (s.getD k 0) + f (s.getD (k + 1) 0)) / 2 *
              (s.getD (k + 1) 0 - s.getD k 0)) / iw.getD i 0 := by
  subst hs
  set s := MergeWaveSets (MergeWaveSets wave e) b with hs
  have hlen2 : 2 ≤ b.length := (binEndpoints_some_parts he).1
  have hsp : s.Pairwise (· < ·) := pairwise_MergeWaveSets _ _
  have hep : e.Pairwise (· < ·) := endpoints_pairwise hb he
  have helen : e.length = b.length + 1 := endpoints_length he
  have hmem : ∀ x ∈ e, x ∈ s := by
    intro x hx
    rw [hs]
    exact mem_MergeWaveSets.mpr (Or.inl (mem_MergeWaveSets.mpr (Or.inr hx)))
  have hindlt : ∀ k < e.length, searchsortedLeft s (e.getD k 0) < s.length :=
    fun k hk => ind_lt_length hsp hmem k hk
  have hindmono : ∀ k, k + 1 < e.length →
      searchsortedLeft s (e.getD k 0) < searchsortedLeft s (e.getD (k + 1) 0) :=
    fun k hk => ind_strictMono hsp hep hmem k hk
  have hrlen : (binRanges (e.map (searchsortedLeft s))).length = b.length := by
    rw [length_binRanges, List.length_map, helen]
    omega
  have hrget : ∀ i < b.length,
      (binRanges (e.map (searchsortedLeft s))).getD i (0, 0) =
        (searchsortedLeft s (e.getD i 0),
          (searchsortedLeft s (e.getD (i + 1) 0) : ℤ)) := by
    intro i hi
    rw [binRanges_getD _ i (by rw [List.length_map]; omega),
      indices_getD _ _ _ (by omega), indices_getD _ _ _ (by omega)]
  have hcollect : collectE ((binRanges (e.map (searchsortedLeft s))).map
      (binfluxTerm (avfluxOf (s.map f)) (deltawOf s))) =
      .ok ((binRanges (e.map (searchsortedLeft s))).map
        (fun r => rawSumTerm (avfluxOf (s.map f)) (deltawOf s) r /
          (pySlice (deltawOf s) (r.1 : ℤ) r.2).sum)) := by
    apply collectE_map_ok
    intro r hr
    obtain ⟨i, hi, hri⟩ := List.mem_iff_getElem.mp hr
    have hib : i < b.length := by omega
    have hr' : r = (searchsortedLeft s (e.getD i 0),
        (searchsortedLeft s (e.getD (i + 1) 0) : ℤ)) := by
      rw [← hri, ← List.getD_eq_getElem _ (0, 0) hi, hrget i hib]
    subst hr'
    have hpos : 0 < (pySlice (deltawOf s)
        ((searchsortedLeft s (e.getD i 0) : Nat) : ℤ)
        ((searchsortedLeft s (e.getD (i + 1) 0) : Nat) : ℤ)).sum :=
      widthTerm_pos hsp _ _ (hindmono i (by omega))
        (by have := hindlt (i + 1) (by omega); omega)
    rw [binfluxTerm, checkedDiv, if_neg (by exact ne_of_gt hpos)]
    rfl
  refine ⟨(binRanges (e.map (searchsortedLeft s))).map
      (fun r => rawSumTerm (avfluxOf (s.map f)) (deltawOf s) r /
        (pySlice (deltawOf s) (r.1 : ℤ) r.2).sum),
    (binRanges (e.map (searchsortedLeft s))).map
      (fun r => (pySlice (deltawOf s) (r.1 : ℤ) r.2).sum),
    ?_, ?_, ?_, ?_⟩
  · simp only [initbinflux_obs, he]
    rw [← hs, hcollect]
  · rw [List.length_map, hrlen]
  · rw [List.length_map, hrlen]
  · intro i hi
    have hiw : ((binRanges (e.map (searchsortedLeft s))).map
        (fun r => (pySlice (deltawOf s) (r.1 : ℤ) r.2).sum)).getD i 0 =
        (pySlice (deltawOf s)
          ((searchsortedLeft s (e.getD i 0) : Nat) : ℤ)
          ((searchsortedLeft s (e.getD (i + 1) 0) : Nat) : ℤ)).sum := by
      rw [getD_map_pair _ _ _ (by omega), hrget i hi]
    have hbound : searchsortedLeft s (e.getD (i + 1) 0) + 1 ≤ s.length := by
      have := hindlt (i + 1) (by omega)
      omega
    have hiwval : (pySlice (deltawOf s)
        ((searchsortedLeft s (e.getD i 0) : Nat) : ℤ)
        ((searchsortedLeft s (e.getD (i + 1) 0) : Nat) : ℤ)).sum =
        ∑ k ∈ Finset.Ico (searchsortedLeft s (e.getD i 0))
          (searchsortedLeft s (e.getD (i + 1) 0)),
          (s.getD (k + 1) 0 - s.getD k 0) :=
      widthTerm_spec _ _ _ hbound
    refine ⟨by rw [hiw, hiwval], ?_, ?_⟩
    · rw [hiw]
      exact widthTerm_pos hsp _ _ (hindmono i (by omega)) hbound
    · rw [getD_map_pair _ _ _ (by omega), hrget i hi, hiw,
        rawSumTerm_spec _ _ _ _ hbound]

theorem initbinflux_new_spec (wave : List ℚ) (f : ℚ → ℚ) {b e s : List ℚ}
    (_hb : b.Pairwise (· < ·)) (he : binEndpoints b = some e)
    (hs : s = MergeWaveSets wave e) :
    ∃ bf,
      initbinflux_new wave b f = .ok bf ∧
      bf.length = b.length ∧
      ∀ i < b.length,
        bf.getD i 0 =
          ∑ k ∈ Finset.Ico (searchsortedLeft s (e.getD i 0))
            (searchsortedLeft s (e.getD (i + 1) 0)),
            (f (s.getD k 0) + f (s.getD (k + 1) 0)) / 2 *
              (s.getD (k + 1) 0 - s.getD k 0) := by
  subst hs
  set s := MergeWaveSets wave e with hs
  have hlen2 : 2 ≤ b.length := (binEndpoints_some_parts he).1
  have hsp : s.Pairwise (· < ·) := pairwise_MergeWaveSets _ _
  have helen : e.length = b.length + 1 := endpoints_length he
  have hmem : ∀ x ∈ e, x ∈ s := by
    intro x hx
    rw [hs]
    exact mem_MergeWaveSets.mpr (Or.inr hx)
  have hindlt : ∀ k < e.length, searchsortedLeft s (e.getD k 0) < s.length :=
    fun k hk => ind_lt_length hsp hmem k hk
  have hrlen : (binRanges (e.map (searchsortedLeft s))).length = b.length := by
    rw [length_binRanges, List.length_map, helen]
    omega
  have hrget : ∀ i < b.length,
      (binRanges (e.map (searchsortedLeft s))).getD i (0, 0) =
        (searchsortedLeft s (e.getD i 0),
          (searchsortedLeft s (e.getD (i + 1) 0) : ℤ)) := by
    intro i hi
    rw [binRanges_getD _ i (by rw [List.length_map]; omega),
      indices_getD _ _ _ (by omega), indices_getD _ _ _ (by omega)]
  refine ⟨(binRanges (e.map (searchsortedLeft s))).map
      (rawSumTerm (avfluxOf (s.map f)) (deltawOf s)), ?_, ?_, ?_⟩
  · simp only [initbinflux_new, he]
  · rw [List.length_map, hrlen]
  · intro i hi
    have hbound : searchsortedLeft s (e.getD (i + 1) 0) + 1 ≤ s.length := by
      have := hindlt (i + 1) (by omega)
      omega
    rw [getD_map_pair _ _ _ (by omega), hrget i hi,
      rawSumTerm_spec _ _ _ _ hbound]

theorem sum_Ico_chain (F : Nat → Nat) (g : Nat → ℚ) (m : Nat)
    (hmono : ∀ i < m, F i ≤ F (i + 1)) :
    ∑ i ∈ Finset.range m, ∑ k ∈ Finset.Ico (F i) (F (i + 1)), g k =
      ∑ k ∈ Finset.Ico (F 0) (F m), g k := by
  induction m with
  | zero => simp
  | succ n ih =>
      have h1 : ∀ i < n, F i ≤ F (i + 1) := fun i hi => hmono i (by omega)
      rw [Finset.sum_range_succ, ih h1]
      have h0m : F 0 ≤ F n := by
        have h2 : ∀ j ≤ n, F 0 ≤ F j := by
          intro j hj
          induction j with
          | zero => exact le_refl _
          | succ p ihp => exact le_trans (ihp (by omega)) (hmono p (by omega))
        exact h2 n (le_refl n)
      exact Finset.sum_Ico_consecutive g h0m (hmono n (by omega))

/-- Claim C1: in flux-density mode (observation.py), for every strictly
increasing binwave of length at least 2, `initbinflux` merges the natural
waveset with the bin endpoints and then with the bin centers, and for every
bin `i` sets `_binflux[i]` to the trapezoid sum over the half-open index
range `[indices[i], indices[i+1])` of the merged grid divided by the sum of
the grid widths over the same range, while `_intwave[i]` equals that width
sum. -/
theorem claim_C1_fluxdensity_binning {b : List ℚ} (wave : List ℚ) (f : ℚ → ℚ)
    (hb : b.Pairwise (· < ·)) (hlen : 2 ≤ b.length) :
    ∃ e s bf iw,
      binEndpoints b = some e ∧
      s = MergeWaveSets (MergeWaveSets wave e) b ∧
      initbinflux_obs wave b f = .ok (bf, iw) ∧
      bf.length = b.length ∧ iw.length = b.length ∧
      ∀ i < b.length,
        iw.getD i 0 =
          (∑ k ∈ Finset.Ico (searchsortedLeft s (e.getD i 0))
              (searchsortedLeft s (e.getD (i + 1) 0)),
            (s.getD (k + 1) 0 - s.getD k 0)) ∧
        bf.getD i 0 =
          (∑ k ∈ Finset.Ico (searchsortedLeft s (e.getD i 0))
              (searchsortedLeft s (e.getD (i + 1) 0)),
            (f (s.getD k 0) + f (s.getD (k + 1) 0)) / 2 *
              (s.getD (k + 1) 0 - s.getD k 0)) /
          (∑ k ∈ Finset.Ico (searchsortedLeft s (e.getD i 0))
              (searchsortedLeft s (e.getD (i + 1) 0)),
            (s.getD (k + 1) 0 - s.getD k 0)) := by
  obtain ⟨e, he⟩ : ∃ e, binEndpoints b = some e := by
    match b with
    | b0 :: b1 :: rest => exact ⟨_, binEndpoints_cons_cons b0 b1 rest⟩
    | [] => simp at hlen
    | [b0] => simp at hlen
  obtain ⟨bf, iw, hok, hbf, hiw, hbin⟩ := initbinflux_obs_spec wave f hb he rfl
  refine ⟨e, _, bf, iw, he, rfl, hok, hbf, hiw, ?_⟩
  intro i hi
  obtain ⟨h1, _, h3⟩ := hbin i hi
  exact ⟨h1, by rw [h3, h1]⟩

/-- Witness for C1 at the flat spectrum scenario of the spec (flux 2 on
`[100…500]`, binset `[150, 250, 350, 450]`). -/
theorem claim_C1_witness :
    ([150, 250, 350, 450] : List ℚ).Pairwise (· < ·) ∧
      2 ≤ ([150, 250, 350, 450] : List ℚ).length ∧
      (∃ e s bf iw,
        binEndpoints ([150, 250, 350, 450] : List ℚ) = some e ∧
        s = MergeWaveSets
          (MergeWaveSets ([100, 200, 300, 400, 500] : List ℚ) e)
          ([150, 250, 350, 450] : List ℚ) ∧
        initbinflux_obs ([100, 200, 300, 400, 500] : List ℚ)
          ([150, 250, 350, 450] : List ℚ) (fun _ => 2) = .ok (bf, iw) ∧
        bf.length = ([150, 250, 350, 450] : List ℚ).length ∧
        iw.length = ([150, 250, 350, 450] : List ℚ).length ∧
        ∀ i < ([150, 250, 350, 450] : List ℚ).length,
          iw.getD i 0 =
            (∑ k ∈ Finset.Ico (searchsortedLeft s (e.getD i 0))
                (searchsortedLeft s (e.getD (i + 1) 0)),
              (s.getD (k + 1) 0 - s.getD k 0)) ∧
          bf.getD i 0 =
            (∑ k ∈ Finset.Ico (searchsortedLeft s (e.getD i 0))
                (searchsortedLeft s (e.getD (i + 1) 0)),
              ((fun (_ : ℚ) => (2 : ℚ)) (s.getD k 0) +
                (fun (_ : ℚ) => (2 : ℚ)) (s.getD (k + 1) 0)) / 2 *
                (s.getD (k + 1) 0 - s.getD k 0)) /
            (∑ k ∈ Finset.Ico (searchsortedLeft s (e.getD i 0))
                (searchsortedLeft s (e.getD (i + 1) 0)),
              (s.getD (k + 1) 0 - s.getD k 0))) :=
  ⟨by decide, by decide,
    claim_C1_fluxdensity_binning [100, 200, 300, 400, 500] (fun _ => 2)
      (by decide) (by decide)⟩

/-- Claim C4: in raw-sum mode (newobservation.py), the per-bin index ranges
tile the merged grid between the first and last bin edge, and the sum of
all raw per-bin fluxes equals the trapezoid-rule integral of the evaluated
flux over that whole grid span, exactly. -/
theorem claim_C4_raw_sum_additivity {b : List ℚ} (wave : List ℚ) (f : ℚ → ℚ)
    (hb : b.Pairwise (· < ·)) (hlen : 2 ≤ b.length) :
    ∃ e s bf,
      binEndpoints b = some e ∧
      s = MergeWaveSets wave e ∧
      initbinflux_new wave b f = .ok bf ∧
      bf.sum =
        ∑ k ∈ Finset.Ico (searchsortedLeft s (e.getD 0 0))
          (searchsortedLeft s (e.getD (e.length - 1) 0)),
          (f (s.getD k 0) + f (s.getD (k + 1) 0)) / 2 *
            (s.getD (k + 1) 0 - s.getD k 0) := by
  obtain ⟨e, he⟩ : ∃ e, binEndpoints b = some e := by
    match b with
    | b0 :: b1 :: rest => exact ⟨_, binEndpoints_cons_cons b0 b1 rest⟩
    | [] => simp at hlen
    | [b0] => simp at hlen
  obtain ⟨bf, hok, hbf, hbin⟩ := initbinflux_new_spec wave f hb he rfl
  refine ⟨e, _, bf, he, rfl, hok, ?_⟩
  have hsp : (MergeWaveSets wave e).Pairwise (· < ·) := pairwise_MergeWaveSets _ _
  have hep : e.Pairwise (· < ·) := endpoints_pairwise hb he
  have helen : e.length = b.length + 1 := endpoints_length he
  have hmem : ∀ x ∈ e, x ∈ MergeWaveSets wave e :=
    fun x hx => mem_MergeWaveSets.mpr (Or.inr hx)
  have hmono : ∀ i < b.length,
      searchsortedLeft (MergeWaveSets wave e) (e.getD i 0) ≤
        searchsortedLeft (MergeWaveSets wave e) (e.getD (i + 1) 0) :=
    fun i hi => le_of_lt (ind_strictMono hsp hep hmem i (by omega))
  have hlast : e.length - 1 = b.length := by omega
  rw [sum_eq_sum_getD, hbf, hlast]
  rw [Finset.sum_congr rfl (fun i hi => hbin i (Finset.mem_range.mp hi))]
  exact sum_Ico_chain _ _ b.length hmono

/-- Witness for C4 at the flat spectrum scenario. -/
theorem claim_C4_witness :
    ([150, 250, 350, 450] : List ℚ).Pairwise (· < ·) ∧
      2 ≤ ([150, 250, 350, 450] : List ℚ).length ∧
      (∃ e s bf,
        binEndpoints ([150, 250, 350, 450] : List ℚ) = some e ∧
        s = MergeWaveSets ([100, 200, 300, 400, 500] : List ℚ) e ∧
        initbinflux_new ([100, 200, 300, 400, 500] : List ℚ)
          ([150, 250, 350, 450] : List ℚ) (fun _ => 2) = .ok bf ∧
        bf.sum =
          ∑ k ∈ Finset.Ico (searchsortedLeft s (e.getD 0 0))
            (searchsortedLeft s (e.getD (e.length - 1) 0)),
            ((fun (_ : ℚ) => (2 : ℚ)) (s.getD k 0) +
              (fun (_ : ℚ) => (2 : ℚ)) (s.getD (k + 1) 0)) / 2 *
              (s.getD (k + 1) 0 - s.getD k 0)) :=
  ⟨by decide, by decide,
    claim_C4_raw_sum_additivity [100, 200, 300, 400, 500] (fun _ => 2)
      (by decide) (by decide)⟩

/-! ### Degenerate bins, error handling, and the remaining interfaces -/

theorem rawSumTerm_empty (avflux deltaw : List ℚ) (a : Nat) :
    rawSumTerm avflux deltaw (a, (a : ℤ)) = 0 := by
  rw [rawSumTerm]
  simp [pySlice_self]

theorem initbinflux_new_eq {wave b : List ℚ} {f : ℚ → ℚ} {e : List ℚ}
    (he : binEndpoints b = some e) :
    initbinflux_new wave b f =
      .ok ((binRanges (e.map (searchsortedLeft (MergeWaveSets wave e)))).map
        (rawSumTerm (avfluxOf ((MergeWaveSets wave e).map f))
          (deltawOf (MergeWaveSets wave e)))) := by
  simp only [initbinflux_new, he]

/-- Counterexample for C2: on the degenerate binwave `[1, 1, 3]` (a
duplicated center), bin 0's index range into the merged grid is empty, and
the flux-density-mode `initbinflux` of observation.py performs the division
`0.0/0.0` — the guarded division's error branch is reached, not avoided, so
the bin does not come out as `(BinnedFlux, BinnedWidth) = (0, 0)`. -/
theorem claim_C2_counterexample :
    initbinflux_obs [1, 4] [1, 1, 3] (fun _ => 1) = .error .zeroDivisionError := by
  norm_num [initbinflux_obs, binEndpoints, midpoints, List.getLast!, List.getLastD,
    MergeWaveSets, sortDedup, insertDedup, searchsortedLeft, List.filter, binRanges,
    binfluxTerm, checkedDiv, pySlice, pyNorm, avfluxOf, deltawOf, collectE]

/-- Amended C2: in raw-sum mode (newobservation.py) a bin with an empty
merged-grid index range yields BinnedFlux = 0 with no division performed;
in flux-density mode (observation.py) the guarded division's error branch
is unreachable only under the strictly-increasing binwave precondition, in
which case no bin has an empty range or zero accumulated width and
`initbinflux` succeeds for every bin. -/
theorem claim_C2_amended :
    (∀ (wave b : List ℚ) (f : ℚ → ℚ) (e : List ℚ) (i : Nat),
      binEndpoints b = some e → i < b.length →
      searchsortedLeft (MergeWaveSets wave e) (e.getD i 0) =
        searchsortedLeft (MergeWaveSets wave e) (e.getD (i + 1) 0) →
      ∃ bf, initbinflux_new wave b f = .ok bf ∧ bf.getD i 0 = 0) ∧
    (∀ (wave b : List ℚ) (f : ℚ → ℚ), b.Pairwise (· < ·) → 2 ≤ b.length →
      ∃ out, initbinflux_obs wave b f = .ok out) := by
  constructor
  · intro wave b f e i he hi hempty
    refine ⟨_, initbinflux_new_eq he, ?_⟩
    have helen : e.length = b.length + 1 := endpoints_length he
    have hrget : (binRanges (e.map
        (searchsortedLeft (MergeWaveSets wave e)))).getD i (0, 0) =
        (searchsortedLeft (MergeWaveSets wave e) (e.getD i 0),
          (searchsortedLeft (MergeWaveSets wave e) (e.getD (i + 1) 0) : ℤ)) := by
      rw [binRanges_getD _ i (by rw [List.length_map]; omega),
        indices_getD _ _ _ (by omega), indices_getD _ _ _ (by omega)]
    rw [getD_map_pair _ _ _
        (by rw [length_binRanges, List.length_map]; omega),
      hrget, ← hempty, rawSumTerm_empty]
  · intro wave b f hb hlen
    obtain ⟨e, he⟩ : ∃ e, binEndpoints b = some e := by
      match b with
      | b0 :: b1 :: rest => exact ⟨_, binEndpoints_cons_cons b0 b1 rest⟩
      | [] => simp at hlen
      | [b0] => simp at hlen
    obtain ⟨bf, iw, hok, _⟩ := initbinflux_obs_spec wave f hb he rfl
    exact ⟨(bf, iw), hok⟩

/-- Witness for the amended C2: bin 0 of binwave `[1, 1, 3]` has an empty
range in raw-sum mode and reports flux 0, while the well-formed binset
`[150, 250, 350, 450]` makes flux-density mode succeed. -/
theorem claim_C2_witness :
    (binEndpoints ([1, 1, 3] : List ℚ) = some [1, 1, 2, 4] ∧
      (0 : Nat) < ([1, 1, 3] : List ℚ).length ∧
      searchsortedLeft (MergeWaveSets [1, 4] [1, 1, 2, 4])
          (([1, 1, 2, 4] : List ℚ).getD 0 0) =
        searchsortedLeft (MergeWaveSets [1, 4] [1, 1, 2, 4])
          (([1, 1, 2, 4] : List ℚ).getD 1 0) ∧
      (∃ bf, initbinflux_new [1, 4] [1, 1, 3] (fun _ => 1) = .ok bf ∧
        bf.getD 0 0 = 0)) ∧
    (([150, 250, 350, 450] : List ℚ).Pairwise (· < ·) ∧
      ∃ out, initbinflux_obs [100, 200, 300, 400, 500] [150, 250, 350, 450]
        (fun _ => 2) = .ok out) :=
  ⟨⟨by norm_num [binEndpoints, midpoints, List.getLast!, List.getLastD],
    by decide,
    by norm_num [searchsortedLeft, MergeWaveSets, sortDedup, insertDedup,
      List.filter, List.getD],
    claim_C2_amended.1 [1, 4] [1, 1, 3] (fun _ => 1) [1, 1, 2, 4] 0
      (by norm_num [binEndpoints, midpoints, List.getLast!, List.getLastD])
      (by decide)
      (by norm_num [searchsortedLeft, MergeWaveSets, sortDedup, insertDedup,
        List.filter, List.getD])⟩,
   ⟨by decide,
    claim_C2_amended.2 [100, 200, 300, 400, 500] [150, 250, 350, 450]
      (fun _ => 2) (by decide) (by decide)⟩⟩

/-- Claim C5: with no force policy, `validate_overlap` raises a domain
overlap error exactly when the overlap status is `"partial"` or `"none"`
and proceeds unmodified on `"full"`; `force="taper"` tapers the spectrum
and proceeds; a force value starting with `"extrap"` proceeds with no
modification regardless of status; any other force value raises the
invalid-force error. -/
theorem claim_C5_validate_overlap (stat : String) (force : Option String) :
    (force = Option.none →
      ((validate_overlap stat Option.none = .raiseDomainOverlap ↔
        stat = "partial" ∨ stat = "none") ∧
       (stat = "full" → validate_overlap stat Option.none = .proceed))) ∧
    (∀ s, force = Option.some s →
      ((pyLower s = "taper" → validate_overlap stat force = .proceedTapered) ∧
       (pyStartswith (pyLower s) "extrap" → validate_overlap stat force = .proceed) ∧
       (pyLower s ≠ "taper" → ¬ pyStartswith (pyLower s) "extrap" →
         validate_overlap stat force = .raiseInvalidForce))) := by
  constructor
  · intro _
    constructor
    · constructor
      · intro h
        simp only [validate_overlap] at h
        by_cases h1 : stat = "full"
        · rw [if_pos h1] at h
          exact absurd h (by simp)
        · rw [if_neg h1] at h
          by_cases h2 : stat = "partial"
          · exact Or.inl h2
          · rw [if_neg h2] at h
            by_cases h3 : stat = "none"
            · exact Or.inr h3
            · rw [if_neg h3] at h
              exact absurd h (by simp)
      · intro h
        rcases h with h | h <;> subst h <;> decide
    · intro h1
      simp only [validate_overlap]
      rw [if_pos h1]
  · intro s hf
    subst hf
    refine ⟨?_, ?_, ?_⟩
    · intro h
      simp only [validate_overlap]
      rw [if_pos h]
    · intro h
      have h1 : pyLower s ≠ "taper" := by
        intro hh
        rw [hh] at h
        exact absurd h (by decide)
      simp only [validate_overlap]
      rw [if_neg h1, if_pos h]
    · intro h1 h2
      simp only [validate_overlap]
      rw [if_neg h1, if_neg h2]

/-- Witness for C5 at the concrete statuses and force values of the spec's
scenarios. -/
theorem claim_C5_witness :
    validate_overlap "none" Option.none = .raiseDomainOverlap ∧
    validate_overlap "full" Option.none = .proceed ∧
    validate_overlap "none" (Option.some "extrapolate") = .proceed ∧
    validate_overlap "none" (Option.some "Taper") = .proceedTapered ∧
    validate_overlap "none" (Option.some "bogus") = .raiseInvalidForce :=
  ⟨((claim_C5_validate_overlap "none" Option.none).1 rfl).1.mpr (Or.inr rfl),
   ((claim_C5_validate_overlap "full" Option.none).1 rfl).2 rfl,
   ((claim_C5_validate_overlap "none" (Option.some "extrapolate")).2
     "extrapolate" rfl).2.1 (by decide),
   ((claim_C5_validate_overlap "none" (Option.some "Taper")).2
     "Taper" rfl).1 (by decide),
   ((claim_C5_validate_overlap "none" (Option.some "bogus")).2
     "bogus" rfl).2.2 (by decide) (by decide)⟩

/-- Claim C6: a binset with a single bin center makes `initbinflux` fail at
construction in both variants (Python raises when it reads `midpoints[0]`
of an empty midpoint array; the spec's abstract name for this failure is
`DegenerateBinSetError`). -/
theorem claim_C6_degenerate_binset (wave : List ℚ) (f : ℚ → ℚ) (b : List ℚ)
    (hb : b.length = 1) :
    initbinflux_obs wave b f = .error .indexError ∧
    initbinflux_new wave b f = .error .indexError := by
  have h := binEndpoints_none_of_short (b := b) (by omega)
  constructor <;> simp only [initbinflux_obs, initbinflux_new, h]

/-- Witness for C6 at the length-1 binset `[3]`. -/
theorem claim_C6_witness :
    ([3] : List ℚ).length = 1 ∧
      initbinflux_obs [1, 2] [3] (fun _ => 1) = .error .indexError ∧
      initbinflux_new [1, 2] [3] (fun _ => 1) = .error .indexError :=
  ⟨by decide,
   (claim_C6_degenerate_binset [1, 2] (fun _ => 1) [3] (by decide)).1,
   (claim_C6_degenerate_binset [1, 2] (fun _ => 1) [3] (by decide)).2⟩

/-- Claim C7: multiplying, adding, or redshifting a constructed Observation
raises `NotImplementedError` (the spec's `UnsupportedOperationError`) for
every operand; these pure operations return no value (`Empty`) and so can
modify nothing. -/
theorem claim_C7_unsupported_ops {σ α : Type} (self : σ) (other : α) (z : ℚ) :
    obs_mul self other = .error .notImplementedError ∧
    obs_rmul self other = .error .notImplementedError ∧
    obs_add self other = .error .notImplementedError ∧
    obs_radd self other = .error .notImplementedError ∧
    obs_redshift self z = .error .notImplementedError ∧
    (∀ y : Empty, obs_mul self other ≠ .ok y) :=
  ⟨rfl, rfl, rfl, rfl, rfl, fun y => y.elim⟩

/-- Witness for C7 at a concrete observation stand-in and operand. -/
theorem claim_C7_witness :
    obs_mul () (37 : Nat) = .error .notImplementedError ∧
    obs_rmul () (37 : Nat) = .error .notImplementedError ∧
    obs_add () (37 : Nat) = .error .notImplementedError ∧
    obs_radd () (37 : Nat) = .error .notImplementedError ∧
    obs_redshift () (1/2 : ℚ) = .error .notImplementedError ∧
    (∀ y : Empty, obs_mul () (37 : Nat) ≠ .ok y) :=
  claim_C7_unsupported_ops () 37 (1/2)

/-- Claim C8: with no caller-supplied binset and no usable instrument-native
grid (`bandWave()` raising `KeyError`/`AttributeError` or returning `None`),
`initbinset` falls back to the spectrum's waveset, surfaces the advisory
message, and raises no error. -/
theorem claim_C8_binset_fallback (specWave : List ℚ) (bw : BandWaveResult)
    (h : bw = .raisesKeyOrAttr ∨ bw = .pyNone) :
    initbinset_obs specWave bw Option.none = ⟨specWave, true⟩ := by
  rcases h with rfl | rfl <;> rfl

/-- Witness for C8 in both degenerate bandWave cases. -/
theorem claim_C8_witness :
    (BandWaveResult.raisesKeyOrAttr = BandWaveResult.raisesKeyOrAttr ∨
      BandWaveResult.raisesKeyOrAttr = BandWaveResult.pyNone) ∧
    initbinset_obs [100, 200] BandWaveResult.raisesKeyOrAttr Option.none =
      ⟨[100, 200], true⟩ ∧
    initbinset_obs [100, 200] BandWaveResult.pyNone Option.none =
      ⟨[100, 200], true⟩ :=
  ⟨Or.inl rfl,
   claim_C8_binset_fallback [100, 200] BandWaveResult.raisesKeyOrAttr (Or.inl rfl),
   claim_C8_binset_fallback [100, 200] BandWaveResult.pyNone (Or.inr rfl)⟩

theorem trapezoidIntegration_map (w : List ℚ) (g : ℚ → ℚ) :
    trapezoidIntegration w (w.map g) =
      ∑ k ∈ Finset.range (w.length - 1),
        (g (w.getD k 0) + g (w.getD (k + 1) 0)) / 2 *
          (w.getD (k + 1) 0 - w.getD k 0) := by
  rw [trapezoidIntegration, sum_eq_sum_getD]
  have hlen : (List.zipWith (· * ·) (avfluxOf (w.map g)) (deltawOf w)).length =
      w.length - 1 := by
    rw [List.length_zipWith, length_avfluxOf, length_deltawOf, List.length_map]
    omega
  rw [hlen]
  refine Finset.sum_congr rfl ?_
  intro k hk
  rw [Finset.mem_range] at hk
  have hk1 : k + 1 < w.length := by omega
  rw [getD_zipWith _ _ _ _ (by rw [length_avfluxOf, List.length_map]; omega)
      (by rw [length_deltawOf]; omega),
    avfluxOf_getD _ _ (by rw [List.length_map]; omega),
    deltawOf_getD _ _ hk1,
    getD_map _ _ _ (by omega), getD_map _ _ _ (show k < w.length by omega)]
  ring

/-- Claim C9: `pivot()` computes `num` as the trapezoid-rule integral of
`f(w)·w` and `den` as that of `f(w)/w` over the native (unbinned) waveset,
returns `sqrt(num/den)` when both are nonzero, and returns exactly `0.0`
whenever `num` or `den` is exactly zero, never raising on that
degeneracy. -/
theorem claim_C9_pivot (wave : List ℚ) (f : ℚ → ℚ) :
    ((∑ k ∈ Finset.range (wave.length - 1),
        (f (wave.getD k 0) * wave.getD k 0 +
         f (wave.getD (k + 1) 0) * wave.getD (k + 1) 0) / 2 *
          (wave.getD (k + 1) 0 - wave.getD k 0)) = 0 ∨
     (∑ k ∈ Finset.range (wave.length - 1),
        (f (wave.getD k 0) / wave.getD k 0 +
         f (wave.getD (k + 1) 0) / wave.getD (k + 1) 0) / 2 *
          (wave.getD (k + 1) 0 - wave.getD k 0)) = 0 →
      pivot wave f = .zero) ∧
    ((∑ k ∈ Finset.range (wave.length - 1),
        (f (wave.getD k 0) * wave.getD k 0 +
         f (wave.getD (k + 1) 0) * wave.getD (k + 1) 0) / 2 *
          (wave.getD (k + 1) 0 - wave.getD k 0)) ≠ 0 →
     (∑ k ∈ Finset.range (wave.length - 1),
        (f (wave.getD k 0) / wave.getD k 0 +
         f (wave.getD (k + 1) 0) / wave.getD (k + 1) 0) / 2 *
          (wave.getD (k + 1) 0 - wave.getD k 0)) ≠ 0 →
      pivot wave f = .sqrtOf
        ((∑ k ∈ Finset.range (wave.length - 1),
          (f (wave.getD k 0) * wave.getD k 0 +
           f (wave.getD (k + 1) 0) * wave.getD (k + 1) 0) / 2 *
            (wave.getD (k + 1) 0 - wave.getD k 0)) /
         (∑ k ∈ Finset.range (wave.length - 1),
          (f (wave.getD k 0) / wave.getD k 0 +
           f (wave.getD (k + 1) 0) / wave.getD (k + 1) 0) / 2 *
            (wave.getD (k + 1) 0 - wave.getD k 0)))) := by
  have hnum := trapezoidIntegration_map wave (fun w => f w * w)
  have hden := trapezoidIntegration_map wave (fun w => f w / w)
  constructor
  · intro h
    simp only [pivot]
    rw [← hnum, ← hden] at h
    rw [if_pos h]
  · intro h1 h2
    simp only [pivot]
    rw [← hnum] at h1
    rw [← hden] at h2
    rw [if_neg (not_or.mpr ⟨h1, h2⟩), hnum, hden]

/-- Witness for C9: a flat unit flux on waveset `[1, 3]` pivots to
`sqrt(4 / (4/3)) = sqrt 3`, and a zero flux hits the guarded zero return. -/
theorem claim_C9_witness :
    pivot [1, 3] (fun _ => 1) = .sqrtOf 3 ∧
      pivot [1, 3] (fun _ => 0) = .zero := by
  constructor
  · have h := (claim_C9_pivot [1, 3] (fun _ => 1)).2
      (by norm_num [Finset.sum_range_succ])
      (by norm_num [Finset.sum_range_succ])
    rw [h]
    norm_num [Finset.sum_range_succ]
  · exact (claim_C9_pivot [1, 3] (fun _ => 0)).1
      (Or.inl (by norm_num [Finset.sum_range_succ]))

/-- Claim C10: `initbinset` stores any caller-supplied binset unchanged —
empty, single-element, or non-increasing with duplicates — raising no error
and printing no advisory; the strictly-increasing length-at-least-2
precondition is never checked there, and violations surface only later
inside `initbinflux` (an `IndexError` for fewer than two centers, a
division degeneracy for a duplicated center). -/
theorem claim_C10_no_validation :
    (∀ (specWave : List ℚ) (bw : BandWaveResult) (b : List ℚ),
      initbinset_obs specWave bw (Option.some b) = ⟨b, false⟩) ∧
    (∀ (wave b : List ℚ) (f : ℚ → ℚ), b.length < 2 →
      initbinflux_obs wave b f = .error .indexError) ∧
    initbinflux_obs [1, 4] [2, 2, 6] (fun _ => 1) = .error .zeroDivisionError := by
  refine ⟨fun _ _ _ => rfl, ?_, ?_⟩
  · intro wave b f h
    have h2 := binEndpoints_none_of_short (b := b) h
    simp only [initbinflux_obs, h2]
  · norm_num [initbinflux_obs, binEndpoints, midpoints, List.getLast!, List.getLastD,
      MergeWaveSets, sortDedup, insertDedup, searchsortedLeft, List.filter, binRanges,
      binfluxTerm, checkedDiv, pySlice, pyNorm, avfluxOf, deltawOf, collectE]

/-- Witness for C10: the empty binset is stored unchanged by `initbinset`
and only fails inside `initbinflux`. -/
theorem claim_C10_witness :
    initbinset_obs [100, 200] BandWaveResult.pyNone (Option.some []) =
      ⟨[], false⟩ ∧
    (([] : List ℚ).length < 2 ∧
      initbinflux_obs [1, 4] [] (fun _ => 1) = .error .indexError) :=
  ⟨claim_C10_no_validation.1 [100, 200] BandWaveResult.pyNone [],
   ⟨by decide, claim_C10_no_validation.2.1 [1, 4] [] (fun _ => 1) (by decide)⟩⟩
